import Mathlib

/-!
Verification of the `rust_tokenizers` Python package shim and of the
multi-scheme tokenization engine it fronts, as described by the project
specification.  The only source file of the repository is
`src/python-bindings/rust_tokenizers/__init__.py`; its module body is
embedded below as a list of Python statements.  The tokenization engine
itself (vocabulary store, subword models, special-token handler,
encoder/decoder facade) is not under `src/`, so those components are
modelled from the specification, with token strings represented as lists
of characters.
-/

namespace RustTokenizers

/-! ## Embedding of `src/python-bindings/rust_tokenizers/__init__.py` -/

/-- A Python module-level statement, restricted to the statement forms that
can occur in a module body we analyse: a `from <module> import <names>`
statement, an assignment of a list-of-string literal to a name, a function
definition, a class definition, or a mutation of an existing object. -/
inductive PyStmt where
  | importFrom (module : String) (names : List String)
  | assignListLiteral (target : String) (value : List String)
  | defFun (name : String)
  | defClass (name : String)
  | mutate (target : String)
  deriving DecidableEq

/-- The names imported on lines 1-3 of `__init__.py`, in source order. -/
def importedNames : List String :=
  ["PyBertTokenizer", "PyCtrlTokenizer", "PyGpt2Tokenizer", "PyRobertaTokenizer",
   "PyOpenAiGptTokenizer", "PySentencePieceTokenizer", "PyAlbertTokenizer", "PyT5Tokenizer",
   "PyXLMRobertaTokenizer", "PyXLNetTokenizer"]

/-- The `__all__` list literal assigned on lines 5-7 of `__init__.py`, in
source order. -/
def allNames : List String :=
  ["PyBertTokenizer", "PyCtrlTokenizer", "PyGpt2Tokenizer", "PyRobertaTokenizer",
   "PyOpenAiGptTokenizer", "PySentencePieceTokenizer", "PyAlbertTokenizer", "PyT5Tokenizer",
   "PyXLMRobertaTokenizer", "PyXLNetTokenizer"]

/-- The module body of `__init__.py`: a relative import from the compiled
extension submodule `.rust_tokenizers` followed by the `__all__` assignment. -/
def moduleBody : List PyStmt :=
  [PyStmt.importFrom ".rust_tokenizers" importedNames,
   PyStmt.assignListLiteral "__all__" allNames]

/-- Whether a statement is pure name plumbing: an import or a literal
assignment, defining no function or class and mutating nothing. -/
def isNamePlumbing : PyStmt → Bool
  | PyStmt.importFrom _ _ => true
  | PyStmt.assignListLiteral _ _ => true
  | _ => false

/-- The names a statement binds in the module namespace when evaluated. -/
def boundNames : PyStmt → List String
  | PyStmt.importFrom _ names => names
  | PyStmt.assignListLiteral target _ => [target]
  | PyStmt.defFun name => [name]
  | PyStmt.defClass name => [name]
  | PyStmt.mutate _ => []

/-- The tokenizer classes a module body re-exports: every name bound by an
`importFrom` statement whose source module is the compiled extension
submodule `.rust_tokenizers`. -/
def reexportedClasses (body : List PyStmt) : List String :=
  body.flatMap (fun s =>
    match s with
    | PyStmt.importFrom m names => if m = ".rust_tokenizers" then names else []
    | _ => [])

/-! ## Vocabulary store

Modelled from the spec: the tokenization engine's code is not under
`src/`, so the Vocabulary Store of spec section 4.1 is modelled from the
spec's words: an immutable ordered sequence of token strings with ids
dense from `0..N-1`, bijective, with no duplicate strings.  Token strings
are represented as lists of characters. -/

/-- A token string, represented as a list of characters. -/
abbrev Str := List Char

/-- Modelled from the spec: the immutable Vocabulary — an ordered sequence
of token strings whose position is its id (ids dense from `0..N-1`), with
no duplicate strings, so the mapping is bijective. -/
structure Vocabulary where
  tokens : List Str
  nodup : tokens.Nodup

/-- The number of entries in the vocabulary. -/
def vocab_size (v : Vocabulary) : Nat := v.tokens.length

/-- The position of the first occurrence of `t` in a token table (the
table's length when `t` is absent). -/
def idxOfStr (t : Str) : List Str → Nat
  | [] => 0
  | s :: rest => if s = t then 0 else idxOfStr t rest + 1

/-- The id of a token string: its position in the table. -/
def token_to_id (v : Vocabulary) (t : Str) : Nat := idxOfStr t v.tokens

/-- The token string at an id, when the id is in range. -/
def id_to_token (v : Vocabulary) (i : Nat) : Option Str := v.tokens[i]?

/-- Modelled from the spec: the reserved UNKNOWN id, a fixed id disjoint
from the ordinary vocabulary ids. -/
def UNKNOWN_ID (v : Vocabulary) : Nat := vocab_size v

/-- Modelled from the spec: the fixed id of the `[CLS]` special token,
disjoint from the ordinary vocabulary ids. -/
def CLS_ID (v : Vocabulary) : Nat := vocab_size v + 1

/-- Modelled from the spec: the fixed id of the `[SEP]` special token,
disjoint from the ordinary vocabulary ids. -/
def SEP_ID (v : Vocabulary) : Nat := vocab_size v + 2

/-- Modelled from the spec: `lookup_id(token) -> id | UNKNOWN_ID` — the id
of the token when present, the reserved UNKNOWN id otherwise. -/
def lookup_id (v : Vocabulary) (t : Str) : Nat :=
  if t ∈ v.tokens then token_to_id v t else UNKNOWN_ID v

/-- Modelled from the spec: `lookup_token(id) -> string | fails with
OutOfRange`. -/
def lookup_token (v : Vocabulary) (i : Nat) : Except String Str :=
  match v.tokens[i]? with
  | some t => Except.ok t
  | none => Except.error "OutOfRange"

/-- A concrete two-entry vocabulary used by witnesses. -/
def vocabHiYo : Vocabulary := ⟨[['h', 'i'], ['y', 'o']], by decide⟩

/-- Whether an Except result is an OutOfRange failure. -/
def isOutOfRange : Except String Str → Bool
  | Except.error _ => true
  | Except.ok _ => false

/-- Modelled from the spec: one decode lookup over the explicitly threaded
shared Vocabulary.  The shared state is passed in and returned so that
frame properties ("failures do not poison the shared state") are
expressible. -/
def decode_step (v : Vocabulary) (i : Nat) : Except String Str × Vocabulary :=
  (lookup_token v i, v)

/-- Modelled from the spec: decoding a list of ids through the shared
Vocabulary with explicit state threading; stops at the first OutOfRange
failure and returns the state it leaves behind. -/
def decode_run : Vocabulary → List Nat → Except String (List Str) × Vocabulary
  | v, [] => (Except.ok [], v)
  | v, i :: rest =>
    match decode_step v i with
    | (Except.ok t, v1) =>
      match decode_run v1 rest with
      | (Except.ok ts, v2) => (Except.ok (t :: ts), v2)
      | (Except.error e, v2) => (Except.error e, v2)
    | (Except.error e, v1) => (Except.error e, v1)

/-! ## Pre-tokenizer and detokenizer

Modelled from the spec: the Pre-Tokenizer of spec section 4.3 splits the
text into segments at whitespace; the decode path of section 4.6
reassembles text with whitespace reinsertion.  Splitting at every space
and rejoining with single spaces are exact inverses. -/

/-- Split a text into its whitespace-separated words (empty words arise
between consecutive spaces, as with a split-on-separator). -/
def splitWords : Str → List Str
  | [] => [[]]
  | c :: cs =>
    if c = ' ' then [] :: splitWords cs
    else
      match splitWords cs with
      | [] => [[c]]
      | w :: ws => (c :: w) :: ws

/-- Reassemble words into a text with single-space separators. -/
def joinWords : List Str → Str
  | [] => []
  | [w] => w
  | w :: ws => w ++ ' ' :: joinWords ws

/-! ## Special-token handler and encoder/decoder facade

Modelled from the spec: the Special-Token Handler of spec section 4.5
(template `[CLS] seq [SEP]`, truncation preserving special tokens) and the
Encoder/Decoder Facade of section 4.6. -/

/-- The Encoding output record: ids, tokens and the special-token mask. -/
structure Encoding where
  ids : List Nat
  tokens : List Str
  special_mask : List Bool

/-- The `[CLS]` special-token string. -/
def clsTok : Str := ['[', 'C', 'L', 'S', ']']

/-- The `[SEP]` special-token string. -/
def sepTok : Str := ['[', 'S', 'E', 'P', ']']

/-- The `[UNK]` special-token string. -/
def unkTok : Str := ['[', 'U', 'N', 'K', ']']

/-- Modelled from the spec: truncate a single sequence so that it fits a
maximum total length together with `numSpecial` special tokens, removing
sequence tokens only. -/
def truncate_sequence (maxLen numSpecial : Nat) (seq : List Str) : List Str :=
  if seq.length + numSpecial ≤ maxLen then seq else seq.take (maxLen - numSpecial)

/-- Modelled from the spec: truncate the second sequence of a pair only,
fitting a maximum total length together with the 3 special tokens of the
pair template. -/
def truncate_pair (maxLen : Nat) (a b : List Str) : List Str × List Str :=
  if a.length + b.length + 3 ≤ maxLen then (a, b)
  else (a, b.take (maxLen - (a.length + 3)))

/-- Modelled from the spec: `build_encoding` assembles the single-sequence
template `[CLS] seq [SEP]`, truncating the sequence portion when a maximum
length is configured, and computes ids and the special-token mask. -/
def build_encoding (v : Vocabulary) (seq : List Str) (maxLen : Option Nat) : Encoding :=
  let s := match maxLen with
    | none => seq
    | some m => truncate_sequence m 2 seq
  { ids := CLS_ID v :: s.map (lookup_id v) ++ [SEP_ID v],
    tokens := clsTok :: s ++ [sepTok],
    special_mask := true :: s.map (fun _ => false) ++ [true] }

/-- Modelled from the spec: `encode` pre-tokenizes the text into words and
assembles the single-sequence encoding. -/
def encode (v : Vocabulary) (text : Str) (maxLen : Option Nat) : Encoding :=
  build_encoding v (splitWords text) maxLen

/-- Modelled from the spec: `encode_pair` assembles the paired-sequence
template `[CLS] seqA [SEP] seqB [SEP]`, truncating the second sequence
only when a maximum length is configured. -/
def encode_pair (v : Vocabulary) (ta tb : Str) (maxLen : Option Nat) : Encoding :=
  let p := match maxLen with
    | none => (splitWords ta, splitWords tb)
    | some m => truncate_pair m (splitWords ta) (splitWords tb)
  { ids := CLS_ID v :: p.1.map (lookup_id v) ++ [SEP_ID v] ++ p.2.map (lookup_id v) ++ [SEP_ID v],
    tokens := clsTok :: p.1 ++ [sepTok] ++ p.2 ++ [sepTok],
    special_mask := true :: p.1.map (fun _ => false) ++ [true] ++
      p.2.map (fun _ => false) ++ [true] }

/-- Look up each id through the vocabulary store, failing on the first
out-of-range id. -/
def decode_ids (v : Vocabulary) : List Nat → Except String (List Str)
  | [] => Except.ok []
  | i :: rest =>
    match lookup_token v i with
    | Except.ok t => (decode_ids v rest).map (fun ts => t :: ts)
    | Except.error e => Except.error e

/-- Modelled from the spec: `decode` optionally drops special-token ids,
maps the remaining ids back through the vocabulary store and reassembles
the text with whitespace reinsertion. -/
def decode (v : Vocabulary) (ids : List Nat) (skip_special : Bool) : Except String Str :=
  let kept := if skip_special
    then ids.filter (fun i => decide (i ≠ CLS_ID v ∧ i ≠ SEP_ID v))
    else ids
  (decode_ids v kept).map joinWords

/-- A concrete vocabulary holding the whole words `hello` and `world`. -/
def vocabHelloWorld : Vocabulary :=
  ⟨[['h', 'e', 'l', 'l', 'o'], ['w', 'o', 'r', 'l', 'd']], by decide⟩

/-- The concrete text `hello world`. -/
def helloWorldText : Str := ['h', 'e', 'l', 'l', 'o', ' ', 'w', 'o', 'r', 'l', 'd']

/-! ## Byte-Pair-Encoding subword model

Modelled from the spec: the BPE variant of spec section 4.4 — repeatedly
find the adjacent symbol pair with the lowest merge-rank from the merge
table and fuse it into one symbol, until no mergeable pair remains. -/

/-- The BPE merge table: an ordered list of symbol pairs whose rank is
their position. -/
abbrev MergeTable := List (Str × Str)

/-- The adjacent symbol pairs of a symbol sequence. -/
def adjacentPairs : List Str → List (Str × Str)
  | x :: y :: rest => (x, y) :: adjacentPairs (y :: rest)
  | _ => []

/-- The rank of a pair in the merge table: its position, when present. -/
def rankIn (p : Str × Str) : MergeTable → Option Nat
  | [] => none
  | q :: rest => if q = p then some 0 else (rankIn p rest).map (· + 1)

/-- The adjacent pairs of the sequence that occur in the merge table,
tagged with their ranks. -/
def mergeCandidates (merges : MergeTable) (syms : List Str) : List ((Str × Str) × Nat) :=
  (adjacentPairs syms).filterMap (fun p => (rankIn p merges).map (fun r => (p, r)))

/-- The mergeable adjacent pair of lowest rank, when one exists. -/
def lowestRankPair (merges : MergeTable) (syms : List Str) : Option (Str × Str) :=
  ((mergeCandidates merges syms).argmin Prod.snd).map Prod.fst

/-- Fuse every (left-to-right, non-overlapping) occurrence of the adjacent
pair `(a, b)` into the single symbol `a ++ b`. -/
def mergePair (a b : Str) : List Str → List Str
  | x :: y :: rest =>
    if x = a ∧ y = b then (a ++ b) :: mergePair a b rest
    else x :: mergePair a b (y :: rest)
  | l => l

/-- The BPE merge loop with explicit fuel: at each step fuse the mergeable
adjacent pair of lowest rank, stopping when none remains. -/
def bpe_go (merges : MergeTable) : Nat → List Str → List Str
  | 0, syms => syms
  | fuel + 1, syms =>
    match lowestRankPair merges syms with
    | none => syms
    | some (a, b) => bpe_go merges fuel (mergePair a b syms)

/-- Modelled from the spec: the BPE subword model — each merge shortens the
sequence, so fuel equal to the sequence length always reaches the state
with no mergeable pair. -/
def bpe (merges : MergeTable) (syms : List Str) : List Str :=
  bpe_go merges syms.length syms

/-! ## WordPiece subword model

Modelled from the spec: the WordPiece variant of spec section 4.4 — for
each segment, greedily match the longest prefix present in the vocabulary
(continuation pieces carry the `##` marker); when no prefix matches at any
position, the whole segment becomes the UNKNOWN token. -/

/-- The WordPiece continuation marker `##`. -/
def contMarker : Str := ['#', '#']

/-- Try candidate prefixes of the segment of length `k, k-1, ..., 1`
(longest first), returning the first candidate found in the vocabulary
together with the remaining suffix. -/
def longestMatch (vocab : List Str) (isCont : Bool) (cs : Str) : Nat → Option (Str × Str)
  | 0 => none
  | k + 1 =>
    let cand := (if isCont then contMarker else []) ++ cs.take (k + 1)
    if cand ∈ vocab then some (cand, cs.drop (k + 1)) else longestMatch vocab isCont cs k

/-- The WordPiece segment loop: repeatedly take the longest vocabulary
prefix; `none` means some position had no match at all. -/
def word_piece_go (vocab : List Str) : Nat → Bool → Str → Option (List Str)
  | _, _, [] => some []
  | 0, _, _ :: _ => none
  | fuel + 1, isCont, c :: cs =>
    match longestMatch vocab isCont (c :: cs) (c :: cs).length with
    | none => none
    | some (tok, rest) => (word_piece_go vocab fuel true rest).map (fun ts => tok :: ts)

/-- Modelled from the spec: the WordPiece subword model — greedy
longest-prefix matching, emitting the UNKNOWN token for the whole segment
when no prefix matches at some position. -/
def word_piece (vocab : List Str) (segment : Str) : List Str :=
  match word_piece_go vocab segment.length false segment with
  | none => [unkTok]
  | some ts => ts

/-- The ids of a WordPiece tokenization, through `lookup_id` (so an
unresolvable segment becomes the reserved UNKNOWN id). -/
def word_piece_ids (v : Vocabulary) (segment : Str) : List Nat :=
  (word_piece v.tokens segment).map (lookup_id v)

/-- A concrete WordPiece vocabulary `{un, ##able, unable}`. -/
def vocabUn : Vocabulary :=
  ⟨[['u', 'n'], ['#', '#', 'a', 'b', 'l', 'e'], ['u', 'n', 'a', 'b', 'l', 'e']], by decide⟩

/-- A concrete WordPiece vocabulary `{un, ##able}` without the whole word. -/
def vocabUnNoWhole : Vocabulary :=
  ⟨[['u', 'n'], ['#', '#', 'a', 'b', 'l', 'e']], by decide⟩

end RustTokenizers

namespace RustTokenizers

/-! ## Helper lemmas about the token index -/

/-- Looking up the index of a present token returns that token. -/
theorem getElem?_idxOfStr {t : Str} : ∀ {l : List Str}, t ∈ l → l[idxOfStr t l]? = some t := by
  intro l
  induction l with
  | nil => intro h; cases h
  | cons s rest ih =>
    intro h
    by_cases hs : s = t
    · subst hs; simp [idxOfStr]
    · have ht : t ∈ rest := by
        rcases List.mem_cons.mp h with h1 | h1
        · exact absurd h1.symm hs
        · exact h1
      simp [idxOfStr, hs, ih ht]

/-- The index of a present token is within the table. -/
theorem idxOfStr_lt_length {t : Str} : ∀ {l : List Str}, t ∈ l → idxOfStr t l < l.length := by
  intro l
  induction l with
  | nil => intro h; cases h
  | cons s rest ih =>
    intro h
    by_cases hs : s = t
    · simp [idxOfStr, hs]
    · have ht : t ∈ rest := by
        rcases List.mem_cons.mp h with h1 | h1
        · exact absurd h1.symm hs
        · exact h1
      simpa [idxOfStr, hs] using ih ht

/-- In a duplicate-free table, the index of the token at position `i` is
`i` itself. -/
theorem idxOfStr_getElem : ∀ {l : List Str}, l.Nodup → ∀ i (h : i < l.length),
    idxOfStr l[i] l = i := by
  intro l
  induction l with
  | nil => intro _ i h; cases h
  | cons s rest ih =>
    intro hnd i h
    cases i with
    | zero => simp [idxOfStr]
    | succ j =>
      have hj : j < rest.length := Nat.lt_of_succ_lt_succ (by simpa using h)
      have hmem : rest[j] ∈ rest := List.getElem_mem hj
      have hs : s ≠ rest[j] := by
        intro he
        exact (List.nodup_cons.mp hnd).1 (he ▸ hmem)
      have : (s :: rest)[j + 1] = rest[j] := by simp
      rw [this]
      simp [idxOfStr, hs, ih (List.nodup_cons.mp hnd).2 j hj]

/-! ## Helper lemmas about the pre-tokenizer round trip -/

/-- Splitting never yields an empty word list. -/
theorem splitWords_ne_nil (s : Str) : splitWords s ≠ [] := by
  cases s with
  | nil => simp [splitWords]
  | cons c cs =>
    by_cases h : c = ' '
    · simp [splitWords, h]
    · cases hs : splitWords cs with
      | nil => simp [splitWords, h, hs]
      | cons w ws => simp [splitWords, h, hs]

/-- Unfolding `joinWords` on a two-or-more element list. -/
theorem joinWords_cons_cons (w x : Str) (ws : List Str) :
    joinWords (w :: x :: ws) = w ++ ' ' :: joinWords (x :: ws) := rfl

/-- Rejoining the words of a split text restores the text exactly. -/
theorem joinWords_splitWords : ∀ s : Str, joinWords (splitWords s) = s := by
  intro s
  induction s with
  | nil => rfl
  | cons c cs ih =>
    by_cases h : c = ' '
    · subst h
      have hrw : splitWords (' ' :: cs) = [] :: splitWords cs := by simp [splitWords]
      rw [hrw]
      cases hs : splitWords cs with
      | nil => exact absurd hs (splitWords_ne_nil cs)
      | cons w ws =>
        rw [hs] at ih
        rw [joinWords_cons_cons]
        simpa using ih
    · cases hs : splitWords cs with
      | nil => exact absurd hs (splitWords_ne_nil cs)
      | cons w ws =>
        have hrw : splitWords (c :: cs) = (c :: w) :: ws := by
          simp [splitWords, h, hs]
        rw [hs] at ih
        rw [hrw]
        cases ws with
        | nil =>
          simp [joinWords] at ih ⊢
          exact ih
        | cons x xs =>
          rw [joinWords_cons_cons] at ih
          rw [joinWords_cons_cons, List.cons_append, ih]

/-- Decoding the looked-up ids of in-vocabulary words restores the words. -/
theorem decode_ids_map_of_mem (v : Vocabulary) :
    ∀ ws : List Str, (∀ w ∈ ws, w ∈ v.tokens) →
    decode_ids v (ws.map (lookup_id v)) = Except.ok ws := by
  intro ws
  induction ws with
  | nil => intro _; rfl
  | cons w rest ih =>
    intro h
    have hw : w ∈ v.tokens := h w (List.mem_cons_self w rest)
    have hl : lookup_id v w = token_to_id v w := if_pos hw
    have hlt : lookup_token v (token_to_id v w) = Except.ok w := by
      simp [lookup_token, token_to_id, getElem?_idxOfStr hw]
    have hrest := ih (fun x hx => h x (List.mem_cons_of_mem w hx))
    simp [decode_ids, hl, hlt, hrest, Except.map]

/-! ## Helper lemmas about the stateful decode -/

/-- Decoding through the explicitly threaded Vocabulary always returns the
Vocabulary unchanged, failures included. -/
theorem decode_run_state : ∀ (ids : List Nat) (v : Vocabulary), (decode_run v ids).2 = v := by
  intro ids
  induction ids with
  | nil => intro v; rfl
  | cons i rest ih =>
    intro v
    simp only [decode_run, decode_step]
    cases hlt : lookup_token v i with
    | ok t =>
      have h2 : (decode_run v rest).2 = v := ih v
      rcases hr : decode_run v rest with ⟨res, v2⟩
      rw [hr] at h2
      dsimp only
      rw [hr]
      cases res <;> simpa using h2
    | error e => simp

/-! ## Helper lemmas about the BPE merge loop -/

/-- Merging a pair never lengthens the symbol sequence. -/
theorem mergePair_length_le (a b : Str) : ∀ l : List Str, (mergePair a b l).length ≤ l.length
  | [] => by simp [mergePair]
  | [x] => by simp [mergePair]
  | x :: y :: rest => by
    by_cases h : x = a ∧ y = b
    · have ih := mergePair_length_le a b rest
      simp only [mergePair, if_pos h, List.length_cons]
      omega
    · have ih : (mergePair a b (y :: rest)).length ≤ rest.length + 1 := by
        simpa using mergePair_length_le a b (y :: rest)
      simp only [mergePair, if_neg h, List.length_cons]
      omega

/-- Merging an adjacent pair strictly shortens the symbol sequence. -/
theorem mergePair_length_lt (a b : Str) :
    ∀ l : List Str, (a, b) ∈ adjacentPairs l → (mergePair a b l).length < l.length
  | [] => by simp [adjacentPairs]
  | [x] => by simp [adjacentPairs]
  | x :: y :: rest => by
    intro hmem
    by_cases h : x = a ∧ y = b
    · have hle := mergePair_length_le a b rest
      simp only [mergePair, if_pos h, List.length_cons]
      omega
    · simp only [adjacentPairs] at hmem
      have hmem' : (a, b) ∈ adjacentPairs (y :: rest) := by
        rcases List.mem_cons.mp hmem with h1 | h1
        · obtain ⟨ha, hb⟩ := Prod.mk.injEq .. |>.mp h1
          exact absurd ⟨ha.symm, hb.symm⟩ h
        · exact h1
      have hlt : (mergePair a b (y :: rest)).length < rest.length + 1 := by
        simpa using mergePair_length_lt a b (y :: rest) hmem'
      simp only [mergePair, if_neg h, List.length_cons]
      omega

/-- A selected lowest-rank pair is an adjacent pair of the sequence. -/
theorem lowestRankPair_mem {merges : MergeTable} {syms : List Str} {p : Str × Str}
    (h : lowestRankPair merges syms = some p) : p ∈ adjacentPairs syms := by
  unfold lowestRankPair at h
  cases ha : (mergeCandidates merges syms).argmin Prod.snd with
  | none => rw [ha] at h; cases h
  | some c =>
    rw [ha] at h
    have hmemo : c ∈ (mergeCandidates merges syms).argmin Prod.snd := by
      rw [Option.mem_def, ha]
    have hc : c ∈ mergeCandidates merges syms := List.argmin_mem hmemo
    have hp : c.1 = p := by simpa using h
    rcases List.mem_filterMap.mp hc with ⟨q, hq, hmap⟩
    cases hr : rankIn q merges with
    | none => rw [hr] at hmap; cases hmap
    | some r =>
      rw [hr] at hmap
      have hqc : (q, r) = c := by simpa using hmap
      rw [← hp, ← hqc]
      exact hq

/-- With fuel at least the sequence length, the merge loop reaches a state
with no mergeable pair. -/
theorem bpe_go_fixpoint (merges : MergeTable) :
    ∀ (fuel : Nat) (syms : List Str), syms.length ≤ fuel →
    lowestRankPair merges (bpe_go merges fuel syms) = none := by
  intro fuel
  induction fuel with
  | zero =>
    intro syms h
    have hnil : syms = [] := List.length_eq_zero.mp (Nat.le_zero.mp h)
    subst hnil
    rfl
  | succ n ih =>
    intro syms h
    cases hl : lowestRankPair merges syms with
    | none => simp [bpe_go, hl]
    | some p =>
      obtain ⟨a, b⟩ := p
      have hmem := lowestRankPair_mem hl
      have hlt := mergePair_length_lt a b syms hmem
      have hfuel : (mergePair a b syms).length ≤ n := by omega
      simpa [bpe_go, hl] using ih (mergePair a b syms) hfuel

/-! ## Claims C1-C4 -/

/-- C1: Importing the package module binds exactly ten public tokenizer
classes, re-exported from the compiled extension submodule, namely the ten
`Py*Tokenizer` classes listed — no more and no fewer. -/
theorem c1_ten_reexported_classes :
    reexportedClasses moduleBody =
      ["PyBertTokenizer", "PyCtrlTokenizer", "PyGpt2Tokenizer", "PyRobertaTokenizer",
       "PyOpenAiGptTokenizer", "PySentencePieceTokenizer", "PyAlbertTokenizer", "PyT5Tokenizer",
       "PyXLMRobertaTokenizer", "PyXLNetTokenizer"] ∧
    (reexportedClasses moduleBody).length = 10 ∧
    (reexportedClasses moduleBody).Nodup := by
  refine ⟨by decide, by decide, by decide⟩

/-- C2: Evaluating the module body performs no computation other than an
extension-submodule import and name binding: every statement is either
an import statement or a literal assignment (so no function or class
is defined, no mutable state is created, and no re-exported object is
mutated), and the bound names are exactly the imported classes plus
`__all__`. -/
theorem c2_module_body_is_name_plumbing :
    moduleBody.all isNamePlumbing = true ∧
    moduleBody.flatMap boundNames = importedNames ++ ["__all__"] := by
  refine ⟨by decide, by decide⟩

/-- C3: The `__all__` list contains exactly the same ten names that
are imported on lines 1-3, each appearing exactly once, so a star-import
binds precisely the ten re-exported tokenizer classes and nothing else. -/
theorem c3_all_matches_imports :
    allNames = importedNames ∧ allNames.Nodup ∧ allNames.length = 10 := by
  refine ⟨by decide, by decide, by decide⟩

/-- C4: the vocabulary mapping is bijective in both directions: for every
token string present in the vocabulary, `id_to_token (token_to_id t) = t`,
and for every id in `[0, vocab_size)`, `token_to_id (id_to_token i) = i`. -/
theorem c4_vocabulary_bijective (v : Vocabulary) :
    (∀ t ∈ v.tokens, id_to_token v (token_to_id v t) = some t) ∧
    (∀ i, i < vocab_size v → (id_to_token v i).map (token_to_id v) = some i) := by
  constructor
  · intro t ht
    simpa [id_to_token, token_to_id] using getElem?_idxOfStr ht
  · intro i hi
    have hi' : i < v.tokens.length := hi
    simp [id_to_token, token_to_id, List.getElem?_eq_getElem hi',
      idxOfStr_getElem v.nodup i hi']

/-- Witness for C4: both round trips evaluated on a concrete two-entry
vocabulary, at the token `"hi"` and at id `1`. -/
theorem c4_vocabulary_bijective_witness :
    id_to_token vocabHiYo (token_to_id vocabHiYo ['h', 'i']) = some ['h', 'i'] ∧
    (id_to_token vocabHiYo 1).map (token_to_id vocabHiYo) = some 1 :=
  ⟨(c4_vocabulary_bijective vocabHiYo).1 ['h', 'i'] (by decide),
   (c4_vocabulary_bijective vocabHiYo).2 1 (by decide)⟩

/-- C5: for every input text whose encoding emits no UNKNOWN id, decoding
the encoded ids with `skip_special` set returns exactly the original
text. -/
theorem c5_decode_encode_roundtrip (v : Vocabulary) (text : Str)
    (h : UNKNOWN_ID v ∉ (encode v text none).ids) :
    decode v (encode v text none).ids true = Except.ok text := by
  have hids : (encode v text none).ids
      = CLS_ID v :: (splitWords text).map (lookup_id v) ++ [SEP_ID v] := rfl
  have hwords : ∀ w ∈ splitWords text, w ∈ v.tokens := by
    intro w hwmem
    by_contra hnot
    apply h
    rw [hids]
    have hunk : lookup_id v w = UNKNOWN_ID v := if_neg hnot
    refine List.mem_cons_of_mem _ (List.mem_append_left _ ?_)
    exact hunk ▸ List.mem_map_of_mem (lookup_id v) hwmem
  have hkeep : ∀ i ∈ (splitWords text).map (lookup_id v),
      decide (i ≠ CLS_ID v ∧ i ≠ SEP_ID v) = true := by
    intro i hi
    rcases List.mem_map.mp hi with ⟨w, hwm, rfl⟩
    have hmem := hwords w hwm
    have heq : lookup_id v w = token_to_id v w := if_pos hmem
    have hlt : lookup_id v w < vocab_size v := by
      rw [heq]
      exact idxOfStr_lt_length hmem
    simp only [decide_eq_true_eq, CLS_ID, SEP_ID]
    omega
  have hfilter : (encode v text none).ids.filter
      (fun i => decide (i ≠ CLS_ID v ∧ i ≠ SEP_ID v))
      = (splitWords text).map (lookup_id v) := by
    have hc : decide (CLS_ID v ≠ CLS_ID v ∧ CLS_ID v ≠ SEP_ID v) = false := by simp
    have hsp : decide (SEP_ID v ≠ CLS_ID v ∧ SEP_ID v ≠ SEP_ID v) = false := by simp
    rw [hids, List.filter_append, List.filter_cons, hc, List.filter_cons, hsp]
    simp only [Bool.false_eq_true, if_false, List.filter_nil, List.append_nil]
    exact List.filter_eq_self.mpr hkeep
  show (decode_ids v ((encode v text none).ids.filter
      (fun i => decide (i ≠ CLS_ID v ∧ i ≠ SEP_ID v)))).map joinWords = Except.ok text
  rw [hfilter, decode_ids_map_of_mem v (splitWords text) hwords]
  simp [Except.map, joinWords_splitWords]

/-- Witness for C5: encoding the text `hello world` against a vocabulary
holding `hello` and `world` emits no UNKNOWN id, and decoding the encoded
ids with `skip_special` set returns `hello world` exactly. -/
theorem c5_decode_encode_roundtrip_witness :
    UNKNOWN_ID vocabHelloWorld ∉ (encode vocabHelloWorld helloWorldText none).ids ∧
    decode vocabHelloWorld (encode vocabHelloWorld helloWorldText none).ids true
      = Except.ok helloWorldText :=
  ⟨by decide, c5_decode_encode_roundtrip vocabHelloWorld helloWorldText (by decide)⟩

/-- C6: the BPE subword model repeatedly merges the adjacent symbol pair
of lowest rank until no mergeable pair remains (for any merge table and
any symbol sequence), and in particular with merge table
`{(a,b): 0, (ab,c): 1}` the symbols `a,b,c` fuse to the single symbol
`abc`. -/
theorem c6_bpe_lowest_rank_merge (merges : MergeTable) (syms : List Str) :
    lowestRankPair merges (bpe merges syms) = none ∧
    bpe [(['a'], ['b']), (['a', 'b'], ['c'])] [['a'], ['b'], ['c']] = [['a', 'b', 'c']] :=
  ⟨bpe_go_fixpoint merges syms.length syms (Nat.le_refl _), by decide⟩

/-- C7: the WordPiece subword model greedily matches the longest
vocabulary prefix: with vocabulary `{un, ##able, unable}` the segment
`unable` becomes the single token `unable` (not `un ##able`, which it does
become only when the whole word is absent), and a segment with no matching
prefix at any position becomes the UNKNOWN token, whose id is the reserved
UNKNOWN id. -/
theorem c7_wordpiece_greedy_longest :
    word_piece vocabUn.tokens ['u', 'n', 'a', 'b', 'l', 'e']
      = [['u', 'n', 'a', 'b', 'l', 'e']] ∧
    word_piece vocabUn.tokens ['u', 'n', 'a', 'b', 'l', 'e']
      ≠ [['u', 'n'], ['#', '#', 'a', 'b', 'l', 'e']] ∧
    word_piece vocabUnNoWhole.tokens ['u', 'n', 'a', 'b', 'l', 'e']
      = [['u', 'n'], ['#', '#', 'a', 'b', 'l', 'e']] ∧
    word_piece vocabUn.tokens ['x', 'y', 'z'] = [unkTok] ∧
    word_piece_ids vocabUn ['x', 'y', 'z'] = [UNKNOWN_ID vocabUn] :=
  ⟨by decide, by decide, by decide, by decide, by decide⟩

/-- C8: with a configured maximum length of at least the two special
tokens, the built encoding has exactly `min (seq.length + 2) maxLen`
tokens, keeps `[CLS]` first and `[SEP]` last, and removes only sequence
tokens: the kept sequence portion is a prefix of the original sequence. -/
theorem c8_truncation_preserves_specials (v : Vocabulary) (m : Nat) (seq : List Str)
    (h : 2 ≤ m) :
    (build_encoding v seq (some m)).tokens.length = min (seq.length + 2) m ∧
    (build_encoding v seq (some m)).tokens.head? = some clsTok ∧
    (build_encoding v seq (some m)).tokens.getLast? = some sepTok ∧
    truncate_sequence m 2 seq <+: seq ∧
    (build_encoding v seq (some m)).tokens
      = clsTok :: truncate_sequence m 2 seq ++ [sepTok] := by
  have htoks : (build_encoding v seq (some m)).tokens
      = clsTok :: truncate_sequence m 2 seq ++ [sepTok] := rfl
  refine ⟨?_, ?_, ?_, ?_, htoks⟩
  · rw [htoks]
    by_cases hle : seq.length + 2 ≤ m
    · simp only [truncate_sequence, if_pos hle, List.length_append, List.length_cons,
        List.length_nil]
      omega
    · simp only [truncate_sequence, if_neg hle, List.length_append, List.length_cons,
        List.length_nil, List.length_take]
      omega
  · rw [htoks]; rfl
  · rw [htoks, show clsTok :: truncate_sequence m 2 seq ++ [sepTok]
        = (clsTok :: truncate_sequence m 2 seq) ++ [sepTok] from rfl]
    exact List.getLast?_concat _
  · unfold truncate_sequence
    by_cases hle : seq.length + 2 ≤ m
    · rw [if_pos hle]
    · rw [if_neg hle]
      exact List.take_prefix _ _

/-- Witness for C8: with maximum length 5 and the 2-token special
overhead, a 10-token sequence truncates to exactly 3 sequence tokens for a
total encoding length of exactly 5, with `[CLS]` first and `[SEP]` last. -/
theorem c8_truncation_preserves_specials_witness :
    (build_encoding vocabHiYo (List.replicate 10 (['a'] : Str)) (some 5)).tokens.length = 5 ∧
    (truncate_sequence 5 2 (List.replicate 10 (['a'] : Str))).length = 3 ∧
    (build_encoding vocabHiYo (List.replicate 10 (['a'] : Str)) (some 5)).tokens.head?
      = some clsTok ∧
    (build_encoding vocabHiYo (List.replicate 10 (['a'] : Str)) (some 5)).tokens.getLast?
      = some sepTok := by
  have h := c8_truncation_preserves_specials vocabHiYo 5 (List.replicate 10 (['a'] : Str))
    (by decide)
  refine ⟨?_, by decide, h.2.1, h.2.2.1⟩
  rw [h.1]
  decide

/-- C9: every Encoding produced by `encode`, `encode_pair` or
`build_encoding` has ids, tokens and special mask of equal length. -/
theorem c9_length_invariant (v : Vocabulary) (text ta tb : Str) (m : Option Nat)
    (seq : List Str) :
    ((encode v text m).ids.length = (encode v text m).tokens.length ∧
      (encode v text m).tokens.length = (encode v text m).special_mask.length) ∧
    ((encode_pair v ta tb m).ids.length = (encode_pair v ta tb m).tokens.length ∧
      (encode_pair v ta tb m).tokens.length = (encode_pair v ta tb m).special_mask.length) ∧
    ((build_encoding v seq m).ids.length = (build_encoding v seq m).tokens.length ∧
      (build_encoding v seq m).tokens.length = (build_encoding v seq m).special_mask.length) := by
  refine ⟨?_, ?_, ?_⟩ <;> cases m <;>
    simp [encode, encode_pair, build_encoding]

/-- C10: `lookup_token` fails with OutOfRange exactly when the id is
outside `[0, vocab_size)`, and decoding a list of ids through the
explicitly threaded shared Vocabulary — failures included — leaves the
Vocabulary unchanged. -/
theorem c10_out_of_range_no_poison (v : Vocabulary) (i : Nat) (ids : List Nat) :
    (isOutOfRange (lookup_token v i) = true ↔ vocab_size v ≤ i) ∧
    (decode_run v ids).2 = v := by
  refine ⟨?_, decode_run_state ids v⟩
  unfold isOutOfRange lookup_token
  cases hv : v.tokens[i]? with
  | some t =>
    have hlt : i < v.tokens.length := (List.getElem?_eq_some.mp hv).1
    exact ⟨fun hbad => absurd hbad Bool.false_ne_true,
      fun hle => absurd hlt (Nat.not_lt.mpr hle)⟩
  | none =>
    have hle : v.tokens.length ≤ i := List.getElem?_eq_none_iff.mp hv
    exact ⟨fun _ => hle, fun _ => rfl⟩

end RustTokenizers
